import Mathlib

/-!
Shallow embedding of `dupe-finder.py`: an NTLM duplicate-password finder.
The script parses pwdump-style credential lines (grouping users by
lowercased NTLM hash), parses a cracked dictionary (`hash:password`),
keeps only groups whose hash has a known password, sorts them by group
size descending with the hash string as tie-break, and renders a report.

Strings are modelled as `List Char` (`Str`); Python semantics
(`str.strip`, `str.split`, `str.lower`, regex matching of the two
module-level patterns) are embedded as executable Lean functions.
-/

abbrev Str := List Char

/-- `[0-9]`, the character class used by both regexes. -/
def isDigitChar (c : Char) : Bool := decide ('0' ≤ c) && decide (c ≤ '9')

/-- `[0-9a-fA-F]`, the character class of the `HEX32` regex. -/
def isHexChar (c : Char) : Bool :=
  isDigitChar c || (decide ('a' ≤ c) && decide (c ≤ 'f')) ||
    (decide ('A' ≤ c) && decide (c ≤ 'F'))

/-- Python `\s` on the ASCII range (the inputs are ASCII-ish text). -/
def isSpaceChar (c : Char) : Bool :=
  c = ' ' || c = '\t' || c = '\n' || c = '\r' || c = '\x0b' || c = '\x0c'

/-- The 26 uppercase/lowercase ASCII letter pairs, the substitutions that
Python `str.lower` performs on the ASCII range. -/
def upperLowerPairs : List (Char × Char) :=
  [('A', 'a'), ('B', 'b'), ('C', 'c'), ('D', 'd'), ('E', 'e'), ('F', 'f'),
   ('G', 'g'), ('H', 'h'), ('I', 'i'), ('J', 'j'), ('K', 'k'), ('L', 'l'),
   ('M', 'm'), ('N', 'n'), ('O', 'o'), ('P', 'p'), ('Q', 'q'), ('R', 'r'),
   ('S', 's'), ('T', 't'), ('U', 'u'), ('V', 'v'), ('W', 'w'), ('X', 'x'),
   ('Y', 'y'), ('Z', 'z')]

/-- Python `str.lower` restricted to ASCII letters (the script only ever
lowercases the 32 hex characters matched by `HEX32`, where this agrees
with full Unicode lowercasing). -/
def asciiLower (c : Char) : Char :=
  ((upperLowerPairs.find? fun p => p.1 = c).map Prod.snd).getD c

/-- Python `str.strip()`: drop leading and trailing whitespace. -/
def pyStrip (s : Str) : Str :=
  ((s.dropWhile isSpaceChar).reverse.dropWhile isSpaceChar).reverse

/-- Python `s.split(sep)` (unbounded): always returns at least one part. -/
def splitAll (sep : Char) : Str → List Str
  | [] => [[]]
  | c :: cs =>
    let r := splitAll sep cs
    if c = sep then [] :: r else (c :: r.headI) :: r.tail

/-- Python `s.split(sep, 1)` when `sep` occurs in `s`: the part before the
first `sep` and everything after it (embedded separators preserved). -/
def splitFirst (sep : Char) : Str → Str × Str
  | [] => ([], [])
  | c :: cs =>
    if c = sep then ([], cs)
    else
      let r := splitFirst sep cs
      (c :: r.1, r.2)

/-- `HEX32.match(s)`: `^([0-9a-fA-F]{32})` — succeeds iff the first 32
characters exist and are hex digits; the group is that 32-char prefix. -/
def hex32Match (s : Str) : Option Str :=
  let pre := s.take 32
  if pre.length = 32 && pre.all isHexChar then some pre else none

/-- `line.startswith('#')`. -/
def startsWithHash : Str → Bool
  | [] => false
  | c :: _ => c = '#'

/-- The per-line work of `parse_pwdump` (source lines 30–42): strip, skip
blank and `#` lines, split on `:`, require at least 4 fields, validate the
4th field with `HEX32`, and return `(lowercased 32-hex key, user)`. -/
def dumpEntry (raw : Str) : Option (Str × Str) :=
  let line := pyStrip raw
  if line.isEmpty || startsWithHash line then none
  else
    let parts := splitAll ':' line
    if parts.length < 4 then none
    else
      let user := pyStrip parts.headI
      let ntlm := pyStrip (parts.getD 3 [])
      match hex32Match ntlm with
      | none => none
      | some g => some (g.map asciiLower, user)

abbrev ByHash := List (Str × List Str)

/-- `if user not in by_hash[h]: by_hash[h].append(user)` on an
insertion-ordered dictionary (Python 3.7+ dict semantics). -/
def addUser : ByHash → Str → Str → ByHash
  | [], h, u => [(h, [u])]
  | (k, us) :: rest, h, u =>
    if k = h then (k, if u ∈ us then us else us ++ [u]) :: rest
    else (k, us) :: addUser rest h u

def parse_pwdump_line (m : ByHash) (raw : Str) : ByHash :=
  match dumpEntry raw with
  | none => m
  | some e => addUser m e.1 e.2

/-- `parse_pwdump` (source lines 23–45). -/
def parse_pwdump (lines : List Str) : ByHash :=
  lines.foldl parse_pwdump_line []

/-- The per-line work of `parse_cracked` (source lines 55–63): strip, skip
blank, `#` and colon-free lines, split once on the first `:`, validate the
hash part with `HEX32`, and return `(lowercased key, stripped password)`. -/
def crackedEntry (raw : Str) : Option (Str × Str) :=
  let line := pyStrip raw
  if line.isEmpty || startsWithHash line || !(line.contains ':') then none
  else
    let hp := splitFirst ':' line
    match hex32Match (pyStrip hp.1) with
    | none => none
    | some g => some (g.map asciiLower, pyStrip hp.2)

abbrev Cracked := List (Str × Str)

/-- `cracked[h] = pw` on an insertion-ordered dictionary: an existing key
keeps its position and gets the new value (last write wins). -/
def setKey : Cracked → Str → Str → Cracked
  | [], k, v => [(k, v)]
  | (k', v') :: rest, k, v =>
    if k' = k then (k', v) :: rest else (k', v') :: setKey rest k v

def parse_cracked_line (m : Cracked) (raw : Str) : Cracked :=
  match crackedEntry raw with
  | none => m
  | some e => setKey m e.1 e.2

/-- `parse_cracked` (source lines 48–64). -/
def parse_cracked (lines : List Str) : Cracked :=
  lines.foldl parse_cracked_line []

/-- `h in cracked` / `cracked[h]` on the ordered-dictionary model. -/
def lookupPw : Cracked → Str → Option Str
  | [], _ => none
  | (k, v) :: rest, h => if k = h then some v else lookupPw rest h

/-- First group stored for a hash (Python dict lookup `by_hash[h]`). -/
def lookupGroup : ByHash → Str → Option (List Str)
  | [], _ => none
  | (k, us) :: rest, h => if k = h then some us else lookupGroup rest h

/-!
Model of the pwdump extraction regex
`PWDUMP_LINE_RE = ^(.*?:[0-9]{1,}:.*?:.*?:::)\s*$` (MULTILINE).
Because the pattern is anchored at `^` and `.` does not cross newlines,
`finditer` over the whole text produces exactly one candidate match per
input line, so the regex is embedded as an anchored matcher on a single
line.  The backtracking search tries the lazy `.*?` positions in
ascending order (and the greedy digit run is forced: it is the maximal
digit run, which must be followed by `:`), exactly as Python's engine
does, and returns the number of characters in capture group 1.
-/

/-- Search for `.*?:::`\s*`$`: the least offset at which `:::` occurs with
only whitespace after it; returns the number of characters consumed up to
and including the `:::`. -/
def findClose : Str → Option Nat
  | [] => none
  | c :: cs =>
    if c = ':' && cs.take 2 = [':', ':'] && (cs.drop 2).all isSpaceChar then some 3
    else (findClose cs).map (· + 1)

/-- Search for `.*?:` followed by a successful `findClose`; returns the
characters consumed up to and including the final `:::`. -/
def findMid : Str → Option Nat
  | [] => none
  | c :: cs =>
    if c = ':' then
      match findClose cs with
      | some k => some (1 + k)
      | none => (findMid cs).map (· + 1)
    else (findMid cs).map (· + 1)

/-- Search for `.*?:[0-9]{1,}:` followed by a successful `findMid`;
returns the total length of capture group 1. -/
def findOuter : Str → Option Nat
  | [] => none
  | c :: cs =>
    if c = ':' then
      let d := cs.takeWhile isDigitChar
      if d.length = 0 then (findOuter cs).map (· + 1)
      else
        match cs.dropWhile isDigitChar with
        | y :: rs =>
          if y = ':' then
            match findMid rs with
            | some k => some (1 + d.length + 1 + k)
            | none => (findOuter cs).map (· + 1)
          else (findOuter cs).map (· + 1)
        | [] => (findOuter cs).map (· + 1)
    else (findOuter cs).map (· + 1)

/-- Anchored match of `PWDUMP_LINE_RE` against one line: capture group 1
(the line up to and including the `:::`, trailing whitespace dropped). -/
def pwdumpMatchLine (s : Str) : Option Str :=
  (findOuter s).map fun n => s.take n

def splitLines (text : Str) : List Str := splitAll '\n' text

/-- `extract_pwdump_lines_from_secretsdump` (source lines 14–20): all
capture groups of `PWDUMP_LINE_RE` over the raw text. -/
def extract_pwdump_lines_from_secretsdump (text : Str) : List Str :=
  (splitLines text).filterMap pwdumpMatchLine

/-- `main`, lines 110–115: parse the extracted lines when there are any,
otherwise fall back to the raw file contents. -/
def candidateLines (text : Str) : List Str :=
  let extracted := extract_pwdump_lines_from_secretsdump text
  if extracted.isEmpty then splitLines text else extracted

/-- Python string `<`: lexicographic comparison by code point. -/
def pyStrLt : Str → Str → Bool
  | [], [] => false
  | [], _ :: _ => true
  | _ :: _, [] => false
  | a :: rest, b :: rest2 =>
    if a < b then true else if b < a then false else pyStrLt rest rest2

/-- Python string `<=`: lexicographic comparison by code point. -/
def pyStrLe : Str → Str → Bool
  | [], _ => true
  | _ :: _, [] => false
  | a :: as, b :: bs => if a < b then true else if b < a then false else pyStrLe as bs

/-- The sort order of `items.sort(key=lambda kv: (-len(kv[1]), kv[0]))`
(source line 136): more users first; ties by ascending hash string. -/
def itemRel (a b : Str × List Str) : Prop :=
  b.2.length < a.2.length ∨ (a.2.length = b.2.length ∧ pyStrLe a.1 b.1 = true)

instance itemRelDecidable : DecidableRel itemRel := fun x y =>
  inferInstanceAs (Decidable (y.2.length < x.2.length ∨
    (x.2.length = y.2.length ∧ pyStrLe x.1 y.1 = true)))

/-- `main`, lines 132–136: keep the groups whose hash has a cracked
password, then sort by `(-len(users), hash)`.  Python's `list.sort` is
stable; since the keys `(-len, hash)` of distinct dictionary entries are
distinct, the stable insertion sort below computes the same list. -/
def correlateItems (by_hash : ByHash) (cracked : Cracked) : ByHash :=
  List.insertionSort itemRel
    (by_hash.filter fun kv => (lookupPw cracked kv.1).isSome)

/-- Message of `main`, line 139. -/
def noMatchMsg : Str := "Подходящих записей с известными паролями не найдено.".data

/-- `main`, lines 148–152: one writer call per username, then the verb
line; the f-string ends in `\n`, which together with `print`'s newline
yields the blank separator line between groups. -/
def renderItem (cracked : Cracked) (it : Str × List Str) : List Str :=
  let verb : Str := if it.2.length ≠ 1 then "имеют".data else "имеет".data
  it.2 ++ [verb ++ " пароль и NTLM - ".data ++ it.1 ++ [':'] ++
    ((lookupPw cracked it.1).getD []) ++ ['\n']]

/-- Observable outcome of one run of `main` after the files are read:
the sequence of writer calls (stdout or the `-o` file) and the lines
printed to standard error.  `mainRun` is a total function: the reporting
phase of `main` raises no exception and always returns (exit status 0). -/
structure MainOutput where
  reportLines : List Str
  stderrLines : List Str
  deriving DecidableEq

/-- `main`, lines 109–155, as a pure function of the two file contents and
of whether `-o FILE` was given. -/
def mainRun (dumpText crackedText : Str) (hasOutputFile : Bool) : MainOutput :=
  let by_hash := parse_pwdump (candidateLines dumpText)
  let cracked := parse_cracked (splitLines crackedText)
  let items := correlateItems by_hash cracked
  if items.isEmpty then
    if hasOutputFile then ⟨[noMatchMsg], []⟩ else ⟨[], [noMatchMsg]⟩
  else
    ⟨items.flatMap (renderItem cracked), []⟩

/-!
Spec-side definitions (for the refinement claims about the extraction
regex): the shape `<anything>:<digits>:<anything>:<anything>:::` with
trailing whitespace ignored, stated with explicit decompositions.
-/

/-- Modelled from the spec: a line "structurally matching
`<anything>:<digits>:<anything>:<anything>:::` (trailing whitespace
ignored)". -/
def specPwdumpShape (s : Str) : Prop :=
  ∃ a d b c w, s = a ++ ':' :: d ++ ':' :: b ++ ':' :: c ++ ':' :: ':' :: ':' :: w ∧
    d ≠ [] ∧ d.all isDigitChar = true ∧ w.all isSpaceChar = true

/-- Modelled from the spec: `g` is "the matching substring" of a line `s`
of the above shape, i.e. the line with its trailing whitespace removed,
ending in `:::`. -/
def specPwdumpGroup (s g : Str) : Prop :=
  ∃ a d b c w, s = a ++ ':' :: d ++ ':' :: b ++ ':' :: c ++ ':' :: ':' :: ':' :: w ∧
    g = a ++ ':' :: d ++ ':' :: b ++ ':' :: c ++ [':', ':', ':'] ∧
    d ≠ [] ∧ d.all isDigitChar = true ∧ w.all isSpaceChar = true

/-- The password recorded by the last line of `lines` that parses to a
dictionary entry with key `k` (`none` when no line does). -/
def lastEntryVal : List Str → Str → Option Str
  | [], _ => none
  | raw :: rest, k =>
    match lastEntryVal rest k with
    | some v => some v
    | none =>
      match crackedEntry raw with
      | some e => if e.1 = k then some e.2 else none
      | none => none

/-- The dump file of the spec's round-trip scenario. -/
def scenarioDump : Str :=
  ("alice:1001:AAD3B435B51404EEAAD3B435B51404EE:CC36CF7A8FDAC60E0C00C7CDA5F64B3E:::\n" ++
   "bob:1002:AAD3B435B51404EEAAD3B435B51404EE:CC36CF7A8FDAC60E0C00C7CDA5F64B3E:::").data

/-- The round-trip scenario dump restricted to its first line. -/
def scenarioDumpSingle : Str :=
  "alice:1001:AAD3B435B51404EEAAD3B435B51404EE:CC36CF7A8FDAC60E0C00C7CDA5F64B3E:::".data

/-- The cracked dictionary of the spec's round-trip scenario. -/
def scenarioCracked : Str := "cc36cf7a8fdac60e0c00c7cda5f64b3e:Summer2024".data

/-!  Order lemmas for the sort relation.  -/

theorem pyStrLe_total (a b : Str) : pyStrLe a b = true ∨ pyStrLe b a = true := by
  induction a generalizing b with
  | nil => left; rfl
  | cons c cs ih =>
    cases b with
    | nil => right; rfl
    | cons d ds =>
      rcases lt_trichotomy c d with hlt | heq | hgt
      · left; simp [pyStrLe, hlt]
      · subst heq
        rcases ih ds with h1 | h1
        · left; simp [pyStrLe, lt_irrefl, h1]
        · right; simp [pyStrLe, lt_irrefl, h1]
      · right; simp [pyStrLe, hgt]

theorem pyStrLe_trans {a b c : Str} (h1 : pyStrLe a b = true)
    (h2 : pyStrLe b c = true) : pyStrLe a c = true := by
  induction a generalizing b c with
  | nil => rfl
  | cons x xs ih =>
    cases b with
    | nil => simp [pyStrLe] at h1
    | cons y ys =>
      cases c with
      | nil => simp [pyStrLe] at h2
      | cons z zs =>
        rcases lt_trichotomy x y with hxy | hxy | hxy
        · rcases lt_trichotomy y z with hyz | hyz | hyz
          · simp [pyStrLe, lt_trans hxy hyz]
          · subst hyz; simp [pyStrLe, hxy]
          · simp [pyStrLe, hyz, asymm hyz] at h2
        · subst hxy
          rcases lt_trichotomy x z with hxz | hxz | hxz
          · simp [pyStrLe, hxz]
          · subst hxz
            simp only [pyStrLe, lt_irrefl, if_false] at h1 h2 ⊢
            exact ih h1 h2
          · simp [pyStrLe, hxz, asymm hxz] at h2
        · simp [pyStrLe, hxy, asymm hxy] at h1

instance itemRelTrans : IsTrans (Str × List Str) itemRel := by
  constructor
  intro a b c hab hbc
  rcases hab with hab | ⟨hab1, hab2⟩
  · rcases hbc with hbc | ⟨hbc1, hbc2⟩
    · exact Or.inl (lt_trans hbc hab)
    · exact Or.inl (hbc1 ▸ hab)
  · rcases hbc with hbc | ⟨hbc1, hbc2⟩
    · exact Or.inl (hab1 ▸ hbc)
    · exact Or.inr ⟨hab1.trans hbc1, pyStrLe_trans hab2 hbc2⟩

instance itemRelTotal : IsTotal (Str × List Str) itemRel := by
  constructor
  intro a b
  rcases Nat.lt_trichotomy a.2.length b.2.length with hl | hl | hl
  · exact Or.inr (Or.inl hl)
  · rcases pyStrLe_total a.1 b.1 with hs | hs
    · exact Or.inl (Or.inr ⟨hl, hs⟩)
    · exact Or.inr (Or.inr ⟨hl.symm, hs⟩)
  · exact Or.inl (Or.inl hl)

/-- C1: a group appears in the correlated output iff its hash is a key of
the cracked dictionary.  No size condition is imposed (the `minGroupSize
>= 1` policy): in particular singleton groups qualify whenever their hash
is cracked, and a group whose hash has no dictionary entry is excluded. -/
theorem correlate_mem_iff (by_hash : ByHash) (cracked : Cracked) (h : Str)
    (us : List Str) :
    (h, us) ∈ correlateItems by_hash cracked ↔
      (h, us) ∈ by_hash ∧ (lookupPw cracked h).isSome = true := by
  unfold correlateItems
  rw [List.mem_insertionSort, List.mem_filter]

/-- C2: the correlated output is sorted by `itemRel`: for any group `A`
appearing before a group `B`, either `A` has strictly more users, or they
have equally many and `A`'s hash string is lexicographically no greater
(so with the distinct hashes of a dictionary, strictly smaller). -/
theorem correlate_sorted (by_hash : ByHash) (cracked : Cracked) :
    List.Pairwise itemRel (correlateItems by_hash cracked) :=
  List.sorted_insertionSort itemRel _

/-!  Character-class facts and small list lemmas.  -/

theorem hex_not_space {c : Char} (h : isHexChar c = true) : isSpaceChar c = false := by
  rcases Bool.eq_false_or_eq_true (isSpaceChar c) with hs | hs
  · exfalso
    have hc : c = ' ' ∨ c = '\t' ∨ c = '\n' ∨ c = '\r' ∨ c = '\x0b' ∨ c = '\x0c' := by
      have := hs
      unfold isSpaceChar at this
      simpa [or_assoc] using this
    rcases hc with rfl | rfl | rfl | rfl | rfl | rfl <;> exact absurd h (by decide)
  · exact hs

theorem hex_ne_colon {c : Char} (h : isHexChar c = true) : c ≠ ':' := by
  intro hc; subst hc; exact absurd h (by decide)

theorem hex_ne_hashChar {c : Char} (h : isHexChar c = true) : c ≠ '#' := by
  intro hc; subst hc; exact absurd h (by decide)

theorem dropWhile_cons_of_false {p : Char → Bool} {c : Char} (h : p c = false)
    (l : Str) : (c :: l).dropWhile p = c :: l := by
  simp [List.dropWhile_cons, h]

theorem dropWhile_append_cons_of_false {p : Char → Bool} {c : Char}
    (h : p c = false) (l m : Str) :
    (l ++ c :: m).dropWhile p = l.dropWhile p ++ c :: m := by
  induction l with
  | nil => simp [List.dropWhile_cons, h]
  | cons a l ih =>
    by_cases ha : p a = true
    · simp [List.dropWhile_cons, ha, ih]
    · simp only [Bool.not_eq_true] at ha
      simp [List.dropWhile_cons, ha]

theorem pyStrip_eq_self {s : Str} (h1 : s.dropWhile isSpaceChar = s)
    (h2 : s.reverse.dropWhile isSpaceChar = s.reverse) : pyStrip s = s := by
  unfold pyStrip
  rw [h1, h2, List.reverse_reverse]

theorem splitFirst_append {g t : Str} (hg : ∀ c ∈ g, c ≠ ':') :
    splitFirst ':' (g ++ ':' :: t) = (g, t) := by
  induction g with
  | nil => simp [splitFirst]
  | cons c g ih =>
    have hc : c ≠ ':' := hg c (by simp)
    have ih2 := ih fun d hd => hg d (by simp [hd])
    simp [splitFirst, hc, ih2]

theorem lookupPw_setKey (m : Cracked) (k v h : Str) :
    lookupPw (setKey m k v) h = if k = h then some v else lookupPw m h := by
  induction m with
  | nil => simp [setKey, lookupPw]
  | cons p rest ih =>
    obtain ⟨k', v'⟩ := p
    by_cases hk : k' = k
    · subst hk
      simp only [setKey, if_pos rfl, lookupPw]
      by_cases hh : k' = h
      · simp [hh]
      · simp [hh]
    · simp only [setKey, if_neg hk, lookupPw]
      by_cases hh : k' = h
      · have hkh : k ≠ h := fun he => hk (hh.trans he.symm)
        simp [hh, hkh]
      · simp [hh, ih]

theorem lookupPw_parse_cracked_aux (lines : List Str) :
    ∀ m k, lookupPw (lines.foldl parse_cracked_line m) k =
      match lastEntryVal lines k with
      | some v => some v
      | none => lookupPw m k := by
  induction lines with
  | nil => intro m k; rfl
  | cons raw rest ih =>
    intro m k
    simp only [List.foldl_cons, lastEntryVal]
    rw [ih]
    cases hrest : lastEntryVal rest k with
    | some v => rfl
    | none =>
      cases hce : crackedEntry raw with
      | none => simp [parse_cracked_line, hce]
      | some e =>
        simp only [parse_cracked_line, hce, lookupPw_setKey]
        by_cases hek : e.1 = k
        · simp [hek]
        · simp [hek]

/-- C4: in `parse_cracked`, a duplicated hash key keeps the password of
its last occurrence (last write wins), and a dictionary line is split on
its first colon only, so a password with embedded colons is kept verbatim
(stated for a 32-hex-character key and an already-trimmed password). -/
theorem parse_cracked_last_write_wins :
    (∀ lines k, lookupPw (parse_cracked lines) k = lastEntryVal lines k) ∧
    (∀ g pw : Str, g.length = 32 → g.all isHexChar = true →
      pw.dropWhile isSpaceChar = pw → pw.reverse.dropWhile isSpaceChar = pw.reverse →
      crackedEntry (g ++ ':' :: pw) = some (g.map asciiLower, pw)) := by
  constructor
  · intro lines k
    have h := lookupPw_parse_cracked_aux lines [] k
    unfold parse_cracked
    rw [h]
    cases lastEntryVal lines k <;> rfl
  · intro g pw hlen hhex hpw1 hpw2
    have hghex : ∀ c ∈ g, isHexChar c = true := List.all_eq_true.mp hhex
    obtain ⟨c0, g', rfl⟩ : ∃ c0 g', g = c0 :: g' := by
      cases g with
      | nil => simp at hlen
      | cons c0 g' => exact ⟨c0, g', rfl⟩
    have hc0 : isHexChar c0 = true := hghex c0 (by simp)
    -- the whole line survives `strip`
    have hstrip : pyStrip ((c0 :: g') ++ ':' :: pw) = (c0 :: g') ++ ':' :: pw := by
      apply pyStrip_eq_self
      · rw [List.cons_append]
        exact dropWhile_cons_of_false (hex_not_space hc0) _
      · have hrev : ((c0 :: g') ++ ':' :: pw).reverse =
            pw.reverse ++ ':' :: (c0 :: g').reverse := by
          simp
        rw [hrev, dropWhile_append_cons_of_false (by decide), hpw2]
    -- the key survives `strip`
    have hgstrip : pyStrip (c0 :: g') = c0 :: g' := by
      apply pyStrip_eq_self
      · exact dropWhile_cons_of_false (hex_not_space hc0) _
      · obtain ⟨d, t, hdt⟩ : ∃ d t, (c0 :: g').reverse = d :: t := by
          cases hr : (c0 :: g').reverse with
          | nil => exact absurd (List.reverse_eq_nil_iff.mp hr) (by simp)
          | cons d t => exact ⟨d, t, rfl⟩
        have hd : d ∈ (c0 :: g') := by
          rw [← List.mem_reverse, hdt]; simp
        rw [hdt]
        exact dropWhile_cons_of_false (hex_not_space (hghex d hd)) _
    have hsplit : splitFirst ':' ((c0 :: g') ++ ':' :: pw) = (c0 :: g', pw) :=
      splitFirst_append fun c hc => hex_ne_colon (hghex c hc)
    have hmatch : hex32Match (c0 :: g') = some (c0 :: g') := by
      unfold hex32Match
      have ht : (c0 :: g').take 32 = c0 :: g' := by
        rw [← hlen, List.take_length]
      rw [ht]
      simp [hlen, hhex]
    have hcontains : ((c0 :: g') ++ ':' :: pw).contains ':' = true := by
      simp [List.contains]
    have hcontains2 : (c0 :: (g' ++ ':' :: pw)).contains ':' = true := by
      simp [List.contains]
    have hsplit2 : splitFirst ':' (c0 :: (g' ++ ':' :: pw)) = (c0 :: g', pw) := by
      simpa using hsplit
    unfold crackedEntry
    rw [hstrip]
    simp [startsWithHash, hex_ne_hashChar hc0, hcontains, hcontains2, hsplit2,
      hgstrip, hmatch, pyStrip_eq_self hpw1 hpw2]

/-- Witness for C4 at a concrete input: the 32-hex key is recognised and
the password `a:b:c` with embedded colons is kept verbatim. -/
theorem parse_cracked_last_write_wins_witness :
    crackedEntry ("CC36CF7A8FDAC60E0C00C7CDA5F64B3E".data ++ ':' :: "a:b:c".data) =
      some ("CC36CF7A8FDAC60E0C00C7CDA5F64B3E".data.map asciiLower, "a:b:c".data) :=
  parse_cracked_last_write_wins.2 "CC36CF7A8FDAC60E0C00C7CDA5F64B3E".data
    "a:b:c".data (by decide) (by decide) (by decide) (by decide)

theorem addUser_nodup {m : ByHash} {h u : Str}
    (hm : ∀ p ∈ m, List.Nodup p.2) : ∀ p ∈ addUser m h u, List.Nodup p.2 := by
  induction m with
  | nil =>
    intro p hp
    simp only [addUser, List.mem_singleton] at hp
    subst hp
    simp
  | cons q rest ih =>
    obtain ⟨k, vs⟩ := q
    intro p hp
    have hvs : vs.Nodup := hm (k, vs) (List.mem_cons_self _ _)
    by_cases hk : k = h
    · rw [addUser, if_pos hk] at hp
      rcases List.mem_cons.mp hp with rfl | hmem
      · by_cases hu : u ∈ vs
        · simpa [hu] using hvs
        · have hc := List.Nodup.concat hu hvs
          simpa [hu, List.concat_eq_append] using hc
      · exact hm p (List.mem_cons_of_mem _ hmem)
    · rw [addUser, if_neg hk] at hp
      rcases List.mem_cons.mp hp with rfl | hmem
      · exact hvs
      · exact ih (fun q hq => hm q (List.mem_cons_of_mem _ hq)) p hmem

theorem parse_pwdump_nodup_aux (lines : List Str) :
    ∀ m, (∀ p ∈ m, List.Nodup p.2) →
      ∀ p ∈ lines.foldl parse_pwdump_line m, List.Nodup p.2 := by
  induction lines with
  | nil => intro m hm; simpa using hm
  | cons raw rest ih =>
    intro m hm
    simp only [List.foldl_cons]
    apply ih
    intro p hp
    unfold parse_pwdump_line at hp
    cases hd : dumpEntry raw with
    | none => rw [hd] at hp; exact hm p hp
    | some e => rw [hd] at hp; exact addUser_nodup hm p hp

/-- C5: a username is never stored twice in one hash group — every group
produced by `parse_pwdump` has no duplicates, because inserting a user
already present in the (first-matching) group leaves the map unchanged,
keeping the first-insertion order. -/
theorem parse_pwdump_groups_nodup :
    (∀ lines h us, (h, us) ∈ parse_pwdump lines → us.Nodup) ∧
    (∀ (m : ByHash) (h u : Str) us,
      lookupGroup m h = some us → u ∈ us → addUser m h u = m) := by
  constructor
  · intro lines h us hmem
    exact parse_pwdump_nodup_aux lines [] (by simp) (h, us) hmem
  · intro m h u us hl hu
    induction m with
    | nil => simp [lookupGroup] at hl
    | cons q rest ih =>
      obtain ⟨k, vs⟩ := q
      by_cases hk : k = h
      · rw [lookupGroup, if_pos hk] at hl
        obtain rfl : vs = us := by injection hl
        rw [addUser, if_pos hk, if_pos hu]
      · rw [lookupGroup, if_neg hk] at hl
        rw [addUser, if_neg hk, ih hl]

/-- Witness for C5: adding `alice` to a group already holding `alice`
changes nothing, and a parsed duplicate-user dump yields nodup groups. -/
theorem parse_pwdump_groups_nodup_witness :
    List.Nodup ["alice".data] ∧
    addUser [("aa".data, ["alice".data, "bob".data])] "aa".data "alice".data =
      [("aa".data, ["alice".data, "bob".data])] := by
  constructor
  · exact parse_pwdump_groups_nodup.1
      ["alice:1001:LM:CC36CF7A8FDAC60E0C00C7CDA5F64B3E:::".data,
       "alice:1001:LM:CC36CF7A8FDAC60E0C00C7CDA5F64B3E:::".data]
      "cc36cf7a8fdac60e0c00c7cda5f64b3e".data ["alice".data] (by decide)
  · exact parse_pwdump_groups_nodup.2 _ _ _ ["alice".data, "bob".data]
      (by decide) (by decide)

/-- C6: `parse_pwdump` silently discards blank lines, `#`-comment lines,
lines with fewer than 4 colon-separated fields, and lines whose 4th field
does not start with 32 hex digits — such a line contributes no user to
any group. -/
theorem parse_pwdump_line_discards (m : ByHash) (raw : Str)
    (h : pyStrip raw = [] ∨ startsWithHash (pyStrip raw) = true ∨
      (splitAll ':' (pyStrip raw)).length < 4 ∨
      hex32Match (pyStrip ((splitAll ':' (pyStrip raw)).getD 3 [])) = none) :
    parse_pwdump_line m raw = m := by
  have hd : dumpEntry raw = none := by
    unfold dumpEntry
    rcases h with h1 | h2 | h3 | h4
    · simp [h1]
    · simp [h2]
    · by_cases hA : (pyStrip raw).isEmpty || startsWithHash (pyStrip raw)
      · simp [hA]
      · simp [hA, h3]
    · by_cases hA : (pyStrip raw).isEmpty || startsWithHash (pyStrip raw)
      · simp [hA]
      · by_cases hB : (splitAll ':' (pyStrip raw)).length < 4
        · simp [hA, hB]
        · have h4x : hex32Match
              (pyStrip ((splitAll ':' (pyStrip raw))[3]?.getD [])) = none := by
            simpa [List.getD] using h4
          simp [hA, hB, h4x]
  unfold parse_pwdump_line
  rw [hd]

/-- Witness for C6 on a comment line. -/
theorem parse_pwdump_line_discards_witness :
    parse_pwdump_line [] "# user:1:LM:CC36CF7A8FDAC60E0C00C7CDA5F64B3E:::".data = [] :=
  parse_pwdump_line_discards []
    "# user:1:LM:CC36CF7A8FDAC60E0C00C7CDA5F64B3E:::".data
    (Or.inr (Or.inl (by decide)))

/-- C8: when no group qualifies, `main` prints the informational
no-matches message — to the output file when `-o` was given, otherwise to
standard error — and returns normally (the model `mainRun` is a total
function: no exception is raised and the exit status is success). -/
theorem mainRun_no_matches (dumpText crackedText : Str) (hasOut : Bool)
    (h : correlateItems (parse_pwdump (candidateLines dumpText))
      (parse_cracked (splitLines crackedText)) = []) :
    mainRun dumpText crackedText hasOut =
      if hasOut then ⟨[noMatchMsg], []⟩ else ⟨[], [noMatchMsg]⟩ := by
  simp [mainRun, h]

/-- Witness for C8 on empty input files. -/
theorem mainRun_no_matches_witness :
    mainRun [] [] false = ⟨[], [noMatchMsg]⟩ :=
  mainRun_no_matches [] [] false (by decide)

/-- C9 as stated is false of the code: on the spec's round-trip scenario
the verb line is written in Russian, not as
`have the password and NTLM - <hash>:<password>`. -/
theorem mainRun_report_english_counterexample :
    (mainRun scenarioDump scenarioCracked false).reportLines ≠
      ["alice".data, "bob".data,
       ("have the password and NTLM - cc36cf7a8fdac60e0c00c7cda5f64b3e:Summer2024\n").data] := by
  decide

/-- C9 (amended): each qualifying group is reported as its member
usernames, one per writer call, followed by the line
`<имеет/имеют> пароль и NTLM - <hash>:<password>` whose trailing `\n`
yields the blank-line separator; the verb is plural `имеют` for the
two-user round-trip scenario and singular `имеет` for a one-user group. -/
theorem mainRun_report_format :
    (mainRun scenarioDump scenarioCracked false).reportLines =
      ["alice".data, "bob".data,
       ("имеют пароль и NTLM - cc36cf7a8fdac60e0c00c7cda5f64b3e:Summer2024\n").data] ∧
    (mainRun scenarioDumpSingle scenarioCracked false).reportLines =
      ["alice".data,
       ("имеет пароль и NTLM - cc36cf7a8fdac60e0c00c7cda5f64b3e:Summer2024\n").data] := by
  exact ⟨by decide, by decide⟩

/-!  Soundness and completeness of the regex matcher model.  -/

theorem findClose_sound {s : Str} {k : Nat} (h : findClose s = some k) :
    ∃ b w, s = b ++ ':' :: ':' :: ':' :: w ∧ w.all isSpaceChar = true ∧
      k = b.length + 3 := by
  induction s generalizing k with
  | nil => simp [findClose] at h
  | cons c cs ih =>
    rw [findClose] at h
    by_cases hc : (c = ':' && cs.take 2 = [':', ':'] && (cs.drop 2).all isSpaceChar) = true
    · rw [if_pos hc] at h
      obtain ⟨⟨hc1, hc2⟩, hc3⟩ :
          ((c = ':' : Bool) = true ∧ (cs.take 2 = [':', ':'] : Bool) = true) ∧
            (cs.drop 2).all isSpaceChar = true := by
        simpa [Bool.and_eq_true] using hc
      have hc1' : c = ':' := by simpa using hc1
      have hc2' : cs.take 2 = [':', ':'] := by simpa using hc2
      have hk : k = 3 := by injection h with h2; exact h2.symm
      have h22 := List.take_append_drop 2 cs
      rw [hc2'] at h22
      have hsplit : cs = ':' :: ':' :: cs.drop 2 := by
        conv_lhs => rw [← h22]
        rfl
      refine ⟨[], cs.drop 2, ?_, hc3, by simp [hk]⟩
      rw [List.nil_append]
      conv_lhs => rw [hc1', hsplit]
    · rw [if_neg hc] at h
      obtain ⟨k', hk', rfl⟩ := Option.map_eq_some'.mp h
      obtain ⟨b, w, rfl, hw, hkb⟩ := ih hk'
      exact ⟨c :: b, w, rfl, hw, by simp [hkb]⟩

theorem findClose_cons (c : Char) (cs : Str) :
    findClose (c :: cs) =
      if c = ':' && cs.take 2 = [':', ':'] && (cs.drop 2).all isSpaceChar
      then some 3 else (findClose cs).map (· + 1) := rfl

theorem findMid_cons (c : Char) (cs : Str) :
    findMid (c :: cs) =
      if c = ':' then
        match findClose cs with
        | some k => some (1 + k)
        | none => (findMid cs).map (· + 1)
      else (findMid cs).map (· + 1) := rfl

theorem findClose_complete (b w : Str) (hw : w.all isSpaceChar = true) :
    (findClose (b ++ ':' :: ':' :: ':' :: w)).isSome = true := by
  induction b with
  | nil =>
    rw [List.nil_append, findClose_cons]
    have hcond : ((':' : Char) = ':' && (':' :: ':' :: w).take 2 = [':', ':'] &&
        ((':' :: ':' :: w).drop 2).all isSpaceChar) = true := by
      simp only [List.take, List.drop]
      simp [hw]
    rw [if_pos hcond]
    rfl
  | cons a b ih =>
    rw [List.cons_append, findClose_cons]
    by_cases hc : (a = ':' && ((b ++ ':' :: ':' :: ':' :: w).take 2 = [':', ':'] : Bool) &&
        ((b ++ ':' :: ':' :: ':' :: w).drop 2).all isSpaceChar) = true
    · rw [if_pos hc]; rfl
    · rw [if_neg hc]
      simpa using ih

theorem findMid_sound {s : Str} {k : Nat} (h : findMid s = some k) :
    ∃ b c w, s = b ++ ':' :: c ++ ':' :: ':' :: ':' :: w ∧
      w.all isSpaceChar = true ∧ k = b.length + 1 + (c.length + 3) := by
  induction s generalizing k with
  | nil => simp [findMid] at h
  | cons x xs ih =>
    rw [findMid_cons] at h
    by_cases hx : x = ':'
    · rw [if_pos hx] at h
      cases hfc : findClose xs with
      | some k2 =>
        rw [hfc] at h
        obtain ⟨c, w, rfl, hw, hk2⟩ := findClose_sound hfc
        refine ⟨[], c, w, by simp [hx], hw, ?_⟩
        have h2 : 1 + k2 = k := by injection h
        simp only [List.length_nil]
        omega
      | none =>
        rw [hfc] at h
        obtain ⟨k', hk', rfl⟩ := Option.map_eq_some'.mp h
        obtain ⟨b, c, w, rfl, hw, hkb⟩ := ih hk'
        refine ⟨x :: b, c, w, rfl, hw, ?_⟩
        simp only [List.length_cons]
        omega
    · rw [if_neg hx] at h
      obtain ⟨k', hk', rfl⟩ := Option.map_eq_some'.mp h
      obtain ⟨b, c, w, rfl, hw, hkb⟩ := ih hk'
      refine ⟨x :: b, c, w, rfl, hw, ?_⟩
      simp only [List.length_cons]
      omega

theorem findMid_complete (b rest : Str) (h : (findClose rest).isSome = true) :
    (findMid (b ++ ':' :: rest)).isSome = true := by
  induction b with
  | nil =>
    rw [List.nil_append, findMid_cons, if_pos rfl]
    obtain ⟨k, hk⟩ := Option.isSome_iff_exists.mp h
    rw [hk]
    rfl
  | cons a b ih =>
    rw [List.cons_append, findMid_cons]
    by_cases ha : a = ':'
    · rw [if_pos ha]
      cases hfc : findClose (b ++ ':' :: rest) with
      | some k => rfl
      | none => simpa using ih
    · rw [if_neg ha]
      simpa using ih

theorem findOuter_cons (c : Char) (cs : Str) :
    findOuter (c :: cs) =
      if c = ':' then
        if (cs.takeWhile isDigitChar).length = 0 then (findOuter cs).map (· + 1)
        else
          match cs.dropWhile isDigitChar with
          | y :: rs =>
            if y = ':' then
              match findMid rs with
              | some k => some (1 + (cs.takeWhile isDigitChar).length + 1 + k)
              | none => (findOuter cs).map (· + 1)
            else (findOuter cs).map (· + 1)
          | [] => (findOuter cs).map (· + 1)
      else (findOuter cs).map (· + 1) := rfl

theorem takeWhile_all (p : Char → Bool) (l : Str) : (l.takeWhile p).all p = true := by
  induction l with
  | nil => rfl
  | cons a l ih =>
    rw [List.takeWhile_cons]
    by_cases ha : p a = true
    · simp [ha, ih]
    · simp [ha]

theorem takeWhile_append_all {p : Char → Bool} {d : Str} {y : Char}
    (hd : d.all p = true) (hy : p y = false) (t : Str) :
    ((d ++ y :: t).takeWhile p) = d := by
  induction d with
  | nil => simp [List.takeWhile_cons, hy]
  | cons a d ih =>
    obtain ⟨ha, hd2⟩ : p a = true ∧ d.all p = true := by simpa using hd
    simp [List.takeWhile_cons, ha, ih hd2]

theorem dropWhile_append_all {p : Char → Bool} {d : Str} {y : Char}
    (hd : d.all p = true) (hy : p y = false) (t : Str) :
    ((d ++ y :: t).dropWhile p) = y :: t := by
  induction d with
  | nil => simp [List.dropWhile_cons, hy]
  | cons a d ih =>
    obtain ⟨ha, hd2⟩ : p a = true ∧ d.all p = true := by simpa using hd
    simp [List.dropWhile_cons, ha, ih hd2]

theorem findOuter_sound {s : Str} {n : Nat} (h : findOuter s = some n) :
    ∃ a d b c w,
      s = a ++ ':' :: d ++ ':' :: b ++ ':' :: c ++ ':' :: ':' :: ':' :: w ∧
      d ≠ [] ∧ d.all isDigitChar = true ∧ w.all isSpaceChar = true ∧
      n = a.length + 1 + d.length + 1 + (b.length + 1 + (c.length + 3)) := by
  induction s generalizing n with
  | nil => simp [findOuter] at h
  | cons x xs ih =>
    have hstep : ∀ n2, (findOuter xs).map (· + 1) = some n2 →
        ∃ a d b c w,
          x :: xs = (x :: a) ++ ':' :: d ++ ':' :: b ++ ':' :: c ++ ':' :: ':' :: ':' :: w ∧
          d ≠ [] ∧ d.all isDigitChar = true ∧ w.all isSpaceChar = true ∧
          n2 = (x :: a).length + 1 + d.length + 1 + (b.length + 1 + (c.length + 3)) := by
      intro n2 hmap
      obtain ⟨n', hn', rfl⟩ := Option.map_eq_some'.mp hmap
      obtain ⟨a, d, b, c, w, rfl, hd, hdig, hw, hk⟩ := ih hn'
      refine ⟨a, d, b, c, w, rfl, hd, hdig, hw, ?_⟩
      simp only [List.length_cons]
      omega
    rw [findOuter_cons] at h
    by_cases hx : x = ':'
    · rw [if_pos hx] at h
      by_cases hd0 : (xs.takeWhile isDigitChar).length = 0
      · rw [if_pos hd0] at h
        obtain ⟨a, d, b, c, w, he, hd, hdig, hw, hk⟩ := hstep _ h
        exact ⟨x :: a, d, b, c, w, he, hd, hdig, hw, hk⟩
      · rw [if_neg hd0] at h
        cases hdw : xs.dropWhile isDigitChar with
        | nil =>
          rw [hdw] at h
          obtain ⟨a, d, b, c, w, he, hd, hdig, hw, hk⟩ := hstep _ h
          exact ⟨x :: a, d, b, c, w, he, hd, hdig, hw, hk⟩
        | cons y rs =>
          rw [hdw] at h
          dsimp only at h
          by_cases hy : y = ':'
          · rw [if_pos hy] at h
            cases hfm : findMid rs with
            | none =>
              rw [hfm] at h
              obtain ⟨a, d, b, c, w, he, hd, hdig, hw, hk⟩ := hstep _ h
              exact ⟨x :: a, d, b, c, w, he, hd, hdig, hw, hk⟩
            | some k =>
              rw [hfm] at h
              have hn : 1 + (xs.takeWhile isDigitChar).length + 1 + k = n := by
                injection h
              obtain ⟨b, c, w, rfl, hw, hk⟩ := findMid_sound hfm
              have hsp : xs = xs.takeWhile isDigitChar ++
                  ':' :: (b ++ ':' :: c ++ ':' :: ':' :: ':' :: w) := by
                conv_lhs => rw [← @List.takeWhile_append_dropWhile _ isDigitChar xs]
                rw [hdw, hy]
              refine ⟨[], xs.takeWhile isDigitChar, b, c, w, ?_, ?_,
                takeWhile_all _ _, hw, ?_⟩
              · rw [hx]
                conv_lhs => rw [hsp]
                simp [List.append_assoc]
              · intro hnil
                rw [hnil] at hd0
                exact hd0 rfl
              · simp only [List.length_nil]
                omega
          · rw [if_neg hy] at h
            obtain ⟨a, d, b, c, w, he, hd, hdig, hw, hk⟩ := hstep _ h
            exact ⟨x :: a, d, b, c, w, he, hd, hdig, hw, hk⟩
    · rw [if_neg hx] at h
      obtain ⟨a, d, b, c, w, he, hd, hdig, hw, hk⟩ := hstep _ h
      exact ⟨x :: a, d, b, c, w, he, hd, hdig, hw, hk⟩

theorem findOuter_complete (a d rs : Str) (hd : d ≠ [])
    (hdig : d.all isDigitChar = true) (h : (findMid rs).isSome = true) :
    (findOuter (a ++ ':' :: d ++ ':' :: rs)).isSome = true := by
  induction a with
  | nil =>
    rw [List.nil_append, List.cons_append, findOuter_cons, if_pos rfl]
    have htw : (d ++ ':' :: rs).takeWhile isDigitChar = d :=
      takeWhile_append_all hdig (by decide) rs
    have hdw : (d ++ ':' :: rs).dropWhile isDigitChar = ':' :: rs :=
      dropWhile_append_all hdig (by decide) rs
    rw [htw, hdw]
    have hlen : d.length ≠ 0 := by
      intro h0
      exact hd (List.length_eq_zero.mp h0)
    rw [if_neg hlen]
    dsimp only
    rw [if_pos rfl]
    obtain ⟨k, hk⟩ := Option.isSome_iff_exists.mp h
    rw [hk]
    rfl
  | cons x a2 ih =>
    rw [List.cons_append, List.cons_append, findOuter_cons]
    by_cases hx : x = ':'
    · rw [if_pos hx]
      by_cases hd0 : ((a2 ++ ':' :: d ++ ':' :: rs).takeWhile isDigitChar).length = 0
      · rw [if_pos hd0]
        simpa using ih
      · rw [if_neg hd0]
        cases hdw : (a2 ++ ':' :: d ++ ':' :: rs).dropWhile isDigitChar with
        | nil => simpa using ih
        | cons y rs2 =>
          dsimp only
          by_cases hy : y = ':'
          · rw [if_pos hy]
            cases hfm : findMid rs2 with
            | some k => rfl
            | none => simpa using ih
          · rw [if_neg hy]
            simpa using ih
    · rw [if_neg hx]
      simpa using ih

theorem pwdumpMatchLine_sound {s g : Str} (h : pwdumpMatchLine s = some g) :
    specPwdumpGroup s g := by
  unfold pwdumpMatchLine at h
  obtain ⟨n, hn, rfl⟩ := Option.map_eq_some'.mp h
  obtain ⟨a, d, b, c, w, rfl, hd, hdig, hw, hnn⟩ := findOuter_sound hn
  refine ⟨a, d, b, c, w, rfl, ?_, hd, hdig, hw⟩
  have hs2 : a ++ ':' :: d ++ ':' :: b ++ ':' :: c ++ ':' :: ':' :: ':' :: w =
      (a ++ ':' :: d ++ ':' :: b ++ ':' :: c ++ [':', ':', ':']) ++ w := by
    simp
  have hP : (a ++ ':' :: d ++ ':' :: b ++ ':' :: c ++ [':', ':', ':']).length = n := by
    simp only [List.length_append, List.length_cons, List.length_nil]
    omega
  rw [hs2, ← hP, List.take_left]

theorem pwdumpMatchLine_complete {s : Str} (h : specPwdumpShape s) :
    (pwdumpMatchLine s).isSome = true := by
  obtain ⟨a, d, b, c, w, rfl, hd, hdig, hw⟩ := h
  have hmid : (findMid (b ++ ':' :: c ++ ':' :: ':' :: ':' :: w)).isSome = true := by
    have h1 := findMid_complete b (c ++ ':' :: ':' :: ':' :: w)
      (findClose_complete c w hw)
    have he : b ++ ':' :: (c ++ ':' :: ':' :: ':' :: w) =
        b ++ ':' :: c ++ ':' :: ':' :: ':' :: w := by
      simp
    rwa [he] at h1
  have hout := findOuter_complete a d (b ++ ':' :: c ++ ':' :: ':' :: ':' :: w)
    hd hdig hmid
  have he2 : a ++ ':' :: d ++ ':' :: (b ++ ':' :: c ++ ':' :: ':' :: ':' :: w) =
      a ++ ':' :: d ++ ':' :: b ++ ':' :: c ++ ':' :: ':' :: ':' :: w := by
    simp
  rw [he2] at hout
  unfold pwdumpMatchLine
  cases hfo : findOuter (a ++ ':' :: d ++ ':' :: b ++ ':' :: c ++ ':' :: ':' :: ':' :: w) with
  | none => rw [hfo] at hout; exact absurd hout (by simp)
  | some n => rfl

theorem candidateLines_of_ne_nil {text : Str}
    (h : (splitLines text).filterMap pwdumpMatchLine ≠ []) :
    candidateLines text = (splitLines text).filterMap pwdumpMatchLine := by
  have hf : ((splitLines text).filterMap pwdumpMatchLine).isEmpty = false := by
    cases hc : (splitLines text).filterMap pwdumpMatchLine with
    | nil => exact absurd hc h
    | cons x xs => rfl
  unfold candidateLines extract_pwdump_lines_from_secretsdump
  simp [hf]

theorem candidateLines_fallback {text : Str}
    (h : ∀ lm ∈ splitLines text, pwdumpMatchLine lm = none) :
    candidateLines text = splitLines text := by
  have hnil : (splitLines text).filterMap pwdumpMatchLine = [] :=
    List.filterMap_eq_nil_iff.mpr h
  unfold candidateLines extract_pwdump_lines_from_secretsdump
  rw [hnil]
  rfl

/-- C7: the extraction step returns exactly the capture groups of the
pwdump pattern — every returned line is of the shape
`<anything>:<digits>:<anything>:<anything>:::` with the trailing
whitespace removed — and when no input line has that shape, the original
input lines are used verbatim (fallback). -/
theorem extract_candidate_lines_spec (text : Str) :
    ((∀ l ∈ splitLines text, ¬ specPwdumpShape l) →
      candidateLines text = splitLines text) ∧
    ((∃ l ∈ splitLines text, specPwdumpShape l) →
      candidateLines text = (splitLines text).filterMap pwdumpMatchLine ∧
      candidateLines text ≠ []) ∧
    (∀ l g, pwdumpMatchLine l = some g → specPwdumpGroup l g) := by
  refine ⟨?_, ?_, fun l g hg => pwdumpMatchLine_sound hg⟩
  · intro hno
    apply candidateLines_fallback
    intro lm hlm
    cases hml : pwdumpMatchLine lm with
    | none => rfl
    | some g =>
      exfalso
      apply hno lm hlm
      obtain ⟨a, d, b, c, w, hs, hgq, hd, hdig, hw⟩ := pwdumpMatchLine_sound hml
      exact ⟨a, d, b, c, w, hs, hd, hdig, hw⟩
  · rintro ⟨l, hl, hshape⟩
    obtain ⟨g, hg⟩ := Option.isSome_iff_exists.mp (pwdumpMatchLine_complete hshape)
    have hmem : g ∈ (splitLines text).filterMap pwdumpMatchLine :=
      List.mem_filterMap.mpr ⟨l, hl, hg⟩
    have hne : (splitLines text).filterMap pwdumpMatchLine ≠ [] := by
      intro h0
      rw [h0] at hmem
      exact absurd hmem (List.not_mem_nil g)
    have hc := candidateLines_of_ne_nil hne
    exact ⟨hc, by rw [hc]; exact hne⟩

/-- Witness for C7: on the line `a:1:b:c::: ` the matcher returns exactly
the matching substring `a:1:b:c:::`, which has the documented shape. -/
theorem extract_candidate_lines_spec_witness :
    specPwdumpGroup "a:1:b:c::: ".data "a:1:b:c:::".data :=
  (extract_candidate_lines_spec []).2.2 "a:1:b:c::: ".data "a:1:b:c:::".data
    (by decide)

/-- C10: when at least one line of the dump matches the extraction
pattern, every non-matching line — in particular a credential line that
`parse_pwdump` itself would accept but that lacks the trailing `:::` — is
dropped before parsing and contributes to no group, whereas with no
matching line at all the whole input reaches the parser (fallback). -/
theorem extraction_excludes_unmatched (text l : Str) :
    ((∃ lm ∈ splitLines text, (pwdumpMatchLine lm).isSome = true) →
      pwdumpMatchLine l = none → l ∉ candidateLines text) ∧
    ((∀ lm ∈ splitLines text, pwdumpMatchLine lm = none) →
      candidateLines text = splitLines text) := by
  constructor
  · rintro ⟨lm, hlm, hsome⟩ hnone hmem
    obtain ⟨g0, hg0⟩ := Option.isSome_iff_exists.mp hsome
    have hne : (splitLines text).filterMap pwdumpMatchLine ≠ [] := by
      have hmem0 : g0 ∈ (splitLines text).filterMap pwdumpMatchLine :=
        List.mem_filterMap.mpr ⟨lm, hlm, hg0⟩
      intro h0
      rw [h0] at hmem0
      exact absurd hmem0 (List.not_mem_nil g0)
    rw [candidateLines_of_ne_nil hne] at hmem
    obtain ⟨l0, hl0, hl0m⟩ := List.mem_filterMap.mp hmem
    obtain ⟨a, d, b, c, w, hs, hgq, hd, hdig, hw⟩ := pwdumpMatchLine_sound hl0m
    have hshape : specPwdumpShape l := by
      refine ⟨a, d, b, c, [], ?_, hd, hdig, rfl⟩
      rw [hgq]
    have hcontra := pwdumpMatchLine_complete hshape
    rw [hnone] at hcontra
    exact absurd hcontra (by simp)
  · exact candidateLines_fallback

/-- Witness for C10: a valid credential line without `:::` is dropped
when another line of the file matches the extraction pattern. -/
theorem extraction_excludes_unmatched_witness :
    "alice:1001:LM:CC36CF7A8FDAC60E0C00C7CDA5F64B3E".data ∉
      candidateLines
        ("a:1:b:c:::\nalice:1001:LM:CC36CF7A8FDAC60E0C00C7CDA5F64B3E").data :=
  (extraction_excludes_unmatched _ _).1
    ⟨"a:1:b:c:::".data, by decide, by decide⟩ (by decide)

/-!  Facts about `asciiLower`, towards the case-insensitivity claim.  -/

theorem asciiLower_cases (c : Char) :
    asciiLower c = c ∨ (c, asciiLower c) ∈ upperLowerPairs := by
  unfold asciiLower
  cases hf : upperLowerPairs.find? fun p => p.1 = c with
  | none => left; rfl
  | some p =>
    right
    have hmem := List.mem_of_find?_eq_some hf
    have hp : p.1 = c := by simpa using List.find?_some hf
    simpa [← hp] using hmem

theorem asciiLower_space (c : Char) :
    isSpaceChar (asciiLower c) = isSpaceChar c := by
  rcases asciiLower_cases c with h | h
  · rw [h]
  · have hall : ∀ p ∈ upperLowerPairs, isSpaceChar p.2 = isSpaceChar p.1 := by
      decide
    simpa using hall (c, asciiLower c) h

theorem asciiLower_hex (c : Char) :
    isHexChar (asciiLower c) = isHexChar c := by
  rcases asciiLower_cases c with h | h
  · rw [h]
  · have hall : ∀ p ∈ upperLowerPairs, isHexChar p.2 = isHexChar p.1 := by
      decide
    simpa using hall (c, asciiLower c) h

theorem asciiLower_idem (c : Char) :
    asciiLower (asciiLower c) = asciiLower c := by
  rcases asciiLower_cases c with h | h
  · rw [h, h]
  · have hall : ∀ p ∈ upperLowerPairs, asciiLower p.2 = p.2 := by decide
    simpa using hall (c, asciiLower c) h

theorem asciiLower_eq_colon (c : Char) : asciiLower c = ':' ↔ c = ':' := by
  rcases asciiLower_cases c with h | h
  · rw [h]
  · have hall : ∀ p ∈ upperLowerPairs, (p.2 = ':' ↔ p.1 = ':') := by decide
    simpa using hall (c, asciiLower c) h

theorem asciiLower_eq_hashChar (c : Char) : asciiLower c = '#' ↔ c = '#' := by
  rcases asciiLower_cases c with h | h
  · rw [h]
  · have hall : ∀ p ∈ upperLowerPairs, (p.2 = '#' ↔ p.1 = '#') := by decide
    simpa using hall (c, asciiLower c) h

/-!  Lowercasing a whole line commutes with each parsing step.  -/

theorem dropWhile_space_map_lower (l : Str) :
    (l.map asciiLower).dropWhile isSpaceChar =
      (l.dropWhile isSpaceChar).map asciiLower := by
  induction l with
  | nil => rfl
  | cons a l ih =>
    simp only [List.map_cons, List.dropWhile_cons, asciiLower_space]
    by_cases ha : isSpaceChar a = true
    · simp [ha, ih]
    · simp only [Bool.not_eq_true] at ha
      simp [ha]

theorem pyStrip_map_lower (s : Str) :
    pyStrip (s.map asciiLower) = (pyStrip s).map asciiLower := by
  unfold pyStrip
  rw [dropWhile_space_map_lower, ← List.map_reverse, dropWhile_space_map_lower,
    ← List.map_reverse]

theorem headI_map (f : Str → Str) (l : List Str) (hf : f [] = []) :
    (l.map f).headI = f l.headI := by
  cases l with
  | nil => exact hf.symm
  | cons a l => rfl

theorem tail_map (f : Str → Str) (l : List Str) :
    (l.map f).tail = l.tail.map f := by
  cases l <;> rfl

theorem splitAll_map_lower (s : Str) :
    splitAll ':' (s.map asciiLower) = (splitAll ':' s).map (List.map asciiLower) := by
  induction s with
  | nil => rfl
  | cons c cs ih =>
    simp only [List.map_cons, splitAll, ih]
    by_cases hc : c = ':'
    · subst hc
      have h2 : asciiLower ':' = ':' := by decide
      simp [h2]
    · have h2 : ¬ asciiLower c = ':' := fun he => hc ((asciiLower_eq_colon c).mp he)
      simp only [hc, h2, if_false]
      rw [headI_map (List.map asciiLower) _ rfl, tail_map]
      simp

theorem splitFirst_map_lower (s : Str) :
    splitFirst ':' (s.map asciiLower) =
      ((splitFirst ':' s).1.map asciiLower, (splitFirst ':' s).2.map asciiLower) := by
  induction s with
  | nil => rfl
  | cons c cs ih =>
    simp only [List.map_cons, splitFirst]
    by_cases hc : c = ':'
    · subst hc
      have h2 : asciiLower ':' = ':' := by decide
      simp [h2]
    · have h2 : ¬ asciiLower c = ':' := fun he => hc ((asciiLower_eq_colon c).mp he)
      simp [hc, h2, ih]

theorem hex32Match_map_lower (s : Str) :
    hex32Match (s.map asciiLower) = (hex32Match s).map (List.map asciiLower) := by
  unfold hex32Match
  rw [← List.map_take]
  have hall : ((s.take 32).map asciiLower).all isHexChar =
      (s.take 32).all isHexChar := by
    induction s.take 32 with
    | nil => rfl
    | cons a l ih => simp [asciiLower_hex, ih]
  simp only [List.length_map, hall]
  by_cases hc : ((s.take 32).length = 32 && (s.take 32).all isHexChar) = true
  · rw [if_pos hc, if_pos hc]
    rfl
  · rw [if_neg hc, if_neg hc]
    rfl

theorem startsWithHash_map_lower (s : Str) :
    startsWithHash (s.map asciiLower) = startsWithHash s := by
  cases s with
  | nil => rfl
  | cons c cs =>
    simp only [List.map_cons, startsWithHash]
    by_cases hc : c = '#'
    · subst hc
      have h2 : asciiLower '#' = '#' := by decide
      simp [h2]
    · have h2 : ¬ asciiLower c = '#' := fun he => hc ((asciiLower_eq_hashChar c).mp he)
      simp [hc, h2]

theorem contains_map_lower (s : Str) :
    (s.map asciiLower).contains ':' = s.contains ':' := by
  induction s with
  | nil => rfl
  | cons c cs ih =>
    simp only [List.map_cons, List.contains_cons, ih]
    by_cases hc : c = ':'
    · subst hc
      have h2 : asciiLower ':' = ':' := by decide
      simp [h2]
    · have h2 : ¬ asciiLower c = ':' := fun he => hc ((asciiLower_eq_colon c).mp he)
      have h3 : (':' == asciiLower c) = false := by
        simp only [beq_eq_false_iff_ne, ne_eq]
        exact fun he => h2 he.symm
      have h4 : (':' == c) = false := by
        simp only [beq_eq_false_iff_ne, ne_eq]
        exact fun he => hc he.symm
      rw [h3, h4]

theorem getD_map (g : Str → Str) (l : List Str) (n : Nat) (hg : g [] = []) :
    (l.map g).getD n [] = g (l.getD n []) := by
  induction l generalizing n with
  | nil => cases n <;> exact hg.symm
  | cons a l ih =>
    cases n with
    | zero => rfl
    | succ n => simpa using ih n

theorem dumpEntry_map_lower (raw : Str) :
    dumpEntry (raw.map asciiLower) =
      (dumpEntry raw).map fun e => (e.1, e.2.map asciiLower) := by
  have hcomp : asciiLower ∘ asciiLower = asciiLower := funext asciiLower_idem
  have hmapnil : List.map asciiLower [] = ([] : Str) := rfl
  unfold dumpEntry
  simp only [pyStrip_map_lower, splitAll_map_lower, startsWithHash_map_lower,
    List.length_map, getD_map _ _ _ hmapnil, headI_map _ _ hmapnil,
    hex32Match_map_lower]
  by_cases hA : ((pyStrip raw).isEmpty || startsWithHash (pyStrip raw)) = true
  · have hA2 : ((pyStrip raw).map asciiLower).isEmpty = (pyStrip raw).isEmpty := by
      cases pyStrip raw <;> rfl
    simp [hA2, hA]
  · have hA2 : ((pyStrip raw).map asciiLower).isEmpty = (pyStrip raw).isEmpty := by
      cases pyStrip raw <;> rfl
    by_cases hB : (splitAll ':' (pyStrip raw)).length < 4
    · simp [hA2, hA, hB]
    · cases hm : hex32Match (pyStrip ((splitAll ':' (pyStrip raw)).getD 3 [])) with
      | none => simp [hA2, hA, hB, hm]
      | some g => simp [hA2, hA, hB, hm, List.map_map, hcomp]

theorem isEmpty_map_lower (l : Str) :
    (l.map asciiLower).isEmpty = l.isEmpty := by
  cases l <;> rfl

theorem crackedEntry_map_lower (raw : Str) :
    crackedEntry (raw.map asciiLower) =
      (crackedEntry raw).map fun e => (e.1, e.2.map asciiLower) := by
  have hcomp : asciiLower ∘ asciiLower = asciiLower := funext asciiLower_idem
  unfold crackedEntry
  simp only [pyStrip_map_lower, startsWithHash_map_lower, contains_map_lower,
    splitFirst_map_lower, hex32Match_map_lower, isEmpty_map_lower]
  cases hm : hex32Match (pyStrip (splitFirst ':' (pyStrip raw)).1) with
  | none =>
    split
    · rfl
    · rfl
  | some g =>
    split
    · rfl
    · simp [List.map_map, hcomp]

theorem addUser_keys_eq (m : ByHash) (h u1 u2 : Str) :
    (addUser m h u1).map Prod.fst = (addUser m h u2).map Prod.fst := by
  induction m with
  | nil => rfl
  | cons q rest ih =>
    obtain ⟨k, vs⟩ := q
    by_cases hk : k = h
    · rw [addUser, if_pos hk, addUser, if_pos hk]
      simp
    · rw [addUser, if_neg hk, addUser, if_neg hk]
      simpa using ih

theorem setKey_keys_eq (m : Cracked) (k v1 v2 : Str) :
    (setKey m k v1).map Prod.fst = (setKey m k v2).map Prod.fst := by
  induction m with
  | nil => rfl
  | cons q rest ih =>
    obtain ⟨k2, v⟩ := q
    by_cases hk : k2 = k
    · rw [setKey, if_pos hk, setKey, if_pos hk]
      simp
    · rw [setKey, if_neg hk, setKey, if_neg hk]
      simpa using ih

/-- C3: the hash key extracted from a line is lowercased before use, in
both parsers, so two raw lines that agree up to ASCII letter case are
accepted or rejected together and produce exactly the same hash keys
(the stored usernames and passwords may of course differ in case). -/
theorem hash_keys_case_insensitive :
    (∀ raw e, dumpEntry raw = some e → e.1.map asciiLower = e.1) ∧
    (∀ raw e, crackedEntry raw = some e → e.1.map asciiLower = e.1) ∧
    (∀ (m : ByHash) (mc : Cracked) (raw1 raw2 : Str),
      raw1.map asciiLower = raw2.map asciiLower →
      (parse_pwdump_line m raw1).map Prod.fst =
        (parse_pwdump_line m raw2).map Prod.fst ∧
      (parse_cracked_line mc raw1).map Prod.fst =
        (parse_cracked_line mc raw2).map Prod.fst) := by
  have hcomp : asciiLower ∘ asciiLower = asciiLower := funext asciiLower_idem
  refine ⟨?_, ?_, ?_⟩
  · intro raw e he
    simp only [dumpEntry] at he
    split at he
    · exact absurd he (by simp)
    · split at he
      · exact absurd he (by simp)
      · split at he
        · exact absurd he (by simp)
        · injection he with h2
          subst h2
          simp [List.map_map, hcomp]
  · intro raw e he
    simp only [crackedEntry] at he
    split at he
    · exact absurd he (by simp)
    · split at he
      · exact absurd he (by simp)
      · injection he with h2
        subst h2
        simp [List.map_map, hcomp]
  · intro m mc raw1 raw2 hr
    have hd : (dumpEntry raw1).map (fun e => (e.1, e.2.map asciiLower)) =
        (dumpEntry raw2).map (fun e => (e.1, e.2.map asciiLower)) := by
      rw [← dumpEntry_map_lower, ← dumpEntry_map_lower, hr]
    have hcr : (crackedEntry raw1).map (fun e => (e.1, e.2.map asciiLower)) =
        (crackedEntry raw2).map (fun e => (e.1, e.2.map asciiLower)) := by
      rw [← crackedEntry_map_lower, ← crackedEntry_map_lower, hr]
    constructor
    · unfold parse_pwdump_line
      cases h1 : dumpEntry raw1 with
      | none =>
        cases h2 : dumpEntry raw2 with
        | none => rfl
        | some e2 => rw [h1, h2] at hd; exact absurd hd (by simp)
      | some e1 =>
        cases h2 : dumpEntry raw2 with
        | none => rw [h1, h2] at hd; exact absurd hd (by simp)
        | some e2 =>
          rw [h1, h2] at hd
          have hkey : e1.1 = e2.1 := by
            have := congrArg (Option.map Prod.fst) hd
            simpa using this
          dsimp only
          rw [hkey]
          exact addUser_keys_eq m e2.1 e1.2 e2.2
    · unfold parse_cracked_line
      cases h1 : crackedEntry raw1 with
      | none =>
        cases h2 : crackedEntry raw2 with
        | none => rfl
        | some e2 => rw [h1, h2] at hcr; exact absurd hcr (by simp)
      | some e1 =>
        cases h2 : crackedEntry raw2 with
        | none => rw [h1, h2] at hcr; exact absurd hcr (by simp)
        | some e2 =>
          rw [h1, h2] at hcr
          have hkey : e1.1 = e2.1 := by
            have := congrArg (Option.map Prod.fst) hcr
            simpa using this
          dsimp only
          rw [hkey]
          exact setKey_keys_eq mc e2.1 e1.2 e2.2

/-- Witness for C3: an upper-case and a lower-case spelling of the same
credential line produce the same hash key in both parsers. -/
theorem hash_keys_case_insensitive_witness :
    (parse_pwdump_line []
        "alice:1001:LM:CC36CF7A8FDAC60E0C00C7CDA5F64B3E:::".data).map Prod.fst =
      (parse_pwdump_line []
        "alice:1001:lm:cc36cf7a8fdac60e0c00c7cda5f64b3e:::".data).map Prod.fst ∧
    (parse_cracked_line []
        "CC36CF7A8FDAC60E0C00C7CDA5F64B3E:pw".data).map Prod.fst =
      (parse_cracked_line []
        "cc36cf7a8fdac60e0c00c7cda5f64b3e:pw".data).map Prod.fst := by
  constructor
  · exact (hash_keys_case_insensitive.2.2 [] []
      "alice:1001:LM:CC36CF7A8FDAC60E0C00C7CDA5F64B3E:::".data
      "alice:1001:lm:cc36cf7a8fdac60e0c00c7cda5f64b3e:::".data (by decide)).1
  · exact (hash_keys_case_insensitive.2.2 [] []
      "CC36CF7A8FDAC60E0C00C7CDA5F64B3E:pw".data
      "cc36cf7a8fdac60e0c00c7cda5f64b3e:pw".data (by decide)).2
